import Mathlib

/-!
Verification of the custom 2-D convolution operator (forward/backward via
unfold/fold), the PGD adversarial perturbation procedure, and the gradient
saliency explainer from `student_code.py`.

Tensors are embedded as total index functions into `ℚ` (exact arithmetic in
place of floating point); shapes are passed explicitly.  `unfoldT` and `foldT`
embed `torch.nn.functional.unfold` / `fold` for square kernels with uniform
stride and padding, the layout being channel-major then within-kernel
row-major for the patch axis and row-major over output positions for the
column axis, exactly as the code relies on.
-/

/-- Tensor data with four indices: (batch, channel, row, column) ↦ value. -/
abbrev D4 := Nat → Nat → Nat → Nat → ℚ

/-- Tensor data with three indices, used for unfolded patch matrices
(batch, patch row, column). -/
abbrev D3 := Nat → Nat → Nat → ℚ

/-- Output spatial size `(size + 2·padding − kernel) / stride + 1`
(floor division), as computed in `CustomConv2DFunction.forward`. -/
def outDim (size K p s : Nat) : Nat :=
  (size + 2 * p - K) / s + 1

/-- Reading the logically zero-padded input: position `(a, b)` of the padded
grid returns `x (a−p) (b−p)` when inside the original `H × W` grid and `0`
on the border. -/
def paddedAt (x : D4) (H W p : Nat) (n c a b : Nat) : ℚ :=
  if p ≤ a ∧ p ≤ b ∧ a < H + p ∧ b < W + p then x n c (a - p) (b - p) else 0

/-- Embedding of `torch.nn.functional.unfold(x, K, padding=p, stride=s)`:
entry `(n, r, l)` with `r = c·K·K + ki·K + kj` and `l = oh·W_o + ow` is the
padded input at channel `c`, row `oh·s + ki`, column `ow·s + kj`. -/
def unfoldT (x : D4) (H W K p s : Nat) : D3 :=
  fun n r l =>
    paddedAt x H W p n (r / (K * K))
      ((l / outDim W K p s) * s + (r % (K * K)) / K)
      ((l % outDim W K p s) * s + r % K)

/-- Embedding of `torch.nn.functional.fold(cols, (H, W), K, padding=p,
stride=s)`: scatter-add of every patch entry back to the grid position it was
read from, summing overlapping contributions. -/
def foldT (cols : D3) (H W K p s : Nat) : D4 :=
  fun n c i j =>
    ∑ ki in Finset.range K, ∑ kj in Finset.range K,
      if ki ≤ i + p ∧ kj ≤ j + p ∧ (i + p - ki) % s = 0 ∧ (j + p - kj) % s = 0
          ∧ (i + p - ki) / s < outDim H K p s ∧ (j + p - kj) / s < outDim W K p s
      then cols n (c * (K * K) + ki * K + kj)
        (((i + p - ki) / s) * outDim W K p s + (j + p - kj) / s)
      else 0

/-- Flattened filter matrix `weight.view(C_o, -1)`: row `co`,
column `r = ci·K·K + ki·K + kj`. -/
def wFlat (w : D4) (K : Nat) : Nat → Nat → ℚ :=
  fun co r => w co (r / (K * K)) ((r % (K * K)) / K) (r % K)

/-- Spatially flattened gradient `grad_output.view(N, C_o, -1)`:
column `l = oh·W_o + ow`. -/
def gFlat (g : D4) (Wo : Nat) : D3 :=
  fun n co l => g n co (l / Wo) (l % Wo)

/-- Embedding of `CustomConv2DFunction.forward` after the asserts: flatten the weight,
unfold the input, take the per-batch matrix product, add the broadcast bias
when present, and reshape to `(N, C_o, H_o, W_o)`. -/
def convOut (x w : D4) (b : Nat → ℚ) (useBias : Bool) (Ci H W K p s : Nat) : D4 :=
  fun n co oh ow =>
    (∑ r in Finset.range (Ci * (K * K)),
        wFlat w K co r * unfoldT x H W K p s n r (oh * outDim W K p s + ow))
      + (if useBias then b co else 0)

/-- The naive triple-nested-loop reference convolution from the spec: for each
output position, the sum over input channels and kernel offsets of
`w · (padded x)`, plus the broadcast bias. -/
def naiveConv (x w : D4) (b : Nat → ℚ) (useBias : Bool) (Ci H W K p s : Nat) : D4 :=
  fun n co oh ow =>
    (∑ ci in Finset.range Ci, ∑ ki in Finset.range K, ∑ kj in Finset.range K,
        w co ci ki kj * paddedAt x H W p n ci (oh * s + ki) (ow * s + kj))
      + (if useBias then b co else 0)

/-- Embedding of `CustomConv2DFunction.forward` with its precondition asserts: `none`
models an `AssertionError` (the call aborts with no partial output).  The
checks are the code's five asserts: square kernel, matching channel counts,
positive stride, non-negative padding, and kernel fitting in the padded
input (both axes). -/
def convForwardChecked (x w : D4) (b : Option (Nat → ℚ))
    (CiX CiW K1 K2 H W : Nat) (stride padding : Int) : Option D4 :=
  if K1 = K2 ∧ CiX = CiW ∧ 0 < stride ∧ 0 ≤ padding
      ∧ (K1 : Int) ≤ (H : Int) + 2 * padding ∧ (K1 : Int) ≤ (W : Int) + 2 * padding
  then some (convOut x w (fun co => (b.getD (fun _ => 0)) co) b.isSome
      CiX H W K1 padding.toNat stride.toNat)
  else none

/-- Backward, gradient w.r.t. the input, the column matrix:
`weight_unfolded.T @ grad_output_unfolded`, entry `(n, r, l)`. -/
def gradInputCols (g w : D4) (Co K Wo : Nat) : D3 :=
  fun n r l => ∑ co in Finset.range Co, wFlat w K co r * gFlat g Wo n co l

/-- Backward, gradient w.r.t. the input:
`fold(weight_unfolded.T @ grad_output_unfolded, (H, W), K, padding, stride)`. -/
def gradInputT (g w : D4) (Co H W K p s : Nat) : D4 :=
  foldT (gradInputCols g w Co K (outDim W K p s)) H W K p s

/-- Backward, gradient w.r.t. the weight:
`sum over the batch of grad_output_unfolded @ input_unfolded.T`, reshaped to
`(C_o, C_i, K, K)`; entry `(co, ci, ki, kj)`. -/
def gradWeightT (g : D4) (xUnf : D3) (N K Ho Wo : Nat) : D4 :=
  fun co ci ki kj =>
    ∑ n in Finset.range N, ∑ l in Finset.range (Ho * Wo),
      gFlat g Wo n co l * xUnf n (ci * (K * K) + ki * K + kj) l

/-- Backward, gradient w.r.t. the bias: `grad_output.sum((0, 2, 3))`. -/
def gradBiasT (g : D4) (N Ho Wo : Nat) : Nat → ℚ :=
  fun co => ∑ n in Finset.range N, ∑ oh in Finset.range Ho,
    ∑ ow in Finset.range Wo, g n co oh ow

/-- Euclidean inner product of two 4-index tensors over an explicit shape. -/
def dot4 (N C H W : Nat) (a b : D4) : ℚ :=
  ∑ n in Finset.range N, ∑ c in Finset.range C,
    ∑ i in Finset.range H, ∑ j in Finset.range W, a n c i j * b n c i j

/-- Number of receptive fields (windows) covering padded position `t + p`
along one axis: the overlap multiplicity of the fold/unfold round trip. -/
def covCount (size K p s : Nat) (t : Nat) : Nat :=
  ((Finset.range (outDim size K p s)).filter
    (fun oh => oh * s ≤ t + p ∧ t + p < oh * s + K)).card

/-- Tensor value with explicit shape and the autograd metadata the attack and
explainer touch (`requires_grad`). -/
structure TTensor where
  dims : Nat × Nat × Nat × Nat
  data : D4
  requiresGrad : Bool

/-- Oracle view of the differentiable model consumed by `PGDAttack.perturb`
and `GradAttention.explain`: its logits, the gradient of `loss_fn(logits,
labels)` with respect to the input for a given per-sample label assignment,
and whether its forward pass raises on a given input. -/
structure ModelOracle where
  numClasses : Nat
  logits : D4 → Nat → Nat → ℚ
  gradLoss : (Nat → Nat) → D4 → D4
  fails : D4 → Bool

/-- Index of the smallest value among `f 0, …, f (k-1)` (first one on ties),
embedding `logits.argmin(dim=1)` for one sample. -/
def argminIdx (k : Nat) (f : Nat → ℚ) : Nat :=
  (List.range k).foldl (fun best i => if f i < f best then i else best) 0

/-- Index of the largest value among `f 0, …, f (k-1)` (first one on ties),
embedding `output.argmax(1)` for one sample. -/
def argmaxIdx (k : Nat) (f : Nat → ℚ) : Nat :=
  (List.range k).foldl (fun best i => if f best < f i then i else best) 0

/-- Embedding of `torch.sign`: `-1`, `0`, or `1`. -/
def ratSign (q : ℚ) : ℚ :=
  if q < 0 then -1 else if 0 < q then 1 else 0

/-- Elementwise projection onto the L-infinity ball of radius `eps` around
`center`: `torch.max(torch.min(v, center + eps), center - eps)`. -/
def clampBox (center : D4) (eps : ℚ) (v : D4) : D4 :=
  fun n c i j =>
    max (min (v n c i j) (center n c i j + eps)) (center n c i j - eps)

/-- The least-confident label per sample, recomputed from the logits of the
current candidate: `logits.argmin(dim=1)` in the loop body. -/
def freshLabels (M : ModelOracle) (cur : D4) : Nat → Nat :=
  fun n => argminIdx M.numClasses (fun k => M.logits cur n k)

/-- One iteration of the PGD loop: forward on the current candidate, loss
against the fresh least-confident label, signed-gradient descent step of size
`stepSize`, then clamping to the `eps`-box around the original input. -/
def pgdStep (M : ModelOracle) (stepSize eps : ℚ) (inp cur : D4) : D4 :=
  clampBox inp eps
    (fun n c i j =>
      cur n c i j - stepSize * ratSign (M.gradLoss (freshLabels M cur) cur n c i j))

/-- The `for i in range(self.num_steps)` loop of `PGDAttack.perturb`; an
`error` result models an exception raised by the model's forward pass inside
the loop, aborting the remaining iterations. -/
def pgdLoop (M : ModelOracle) (stepSize eps : ℚ) (inp : D4) :
    Nat → D4 → Except Unit D4
  | 0, cur => .ok cur
  | Nat.succ k, cur =>
    if M.fails cur then .error ()
    else pgdLoop M stepSize eps inp k (pgdStep M stepSize eps inp cur)

/-- Embedding of `PGDAttack.perturb`: returns the model's train/eval mode
after the call, the caller's input tensor after the call (the code's only
write to it is `input.requires_grad = False`), and the adversarial sample or
the exception.  The mode is set to eval for the loop when the model was
training and restored by `model.train()` only on the normal exit path. -/
def perturb (M : ModelOracle) (training : Bool) (numSteps : Nat)
    (stepSize eps : ℚ) (input : TTensor) : Bool × TTensor × Except Unit D4 :=
  let inputAfter : TTensor :=
    { dims := input.dims, data := input.data, requiresGrad := false }
  let modeDuring := if training then false else training
  match pgdLoop M stepSize eps input.data numSteps input.data with
  | .ok out => (if training then true else modeDuring, inputAfter, .ok out)
  | .error e => (modeDuring, inputAfter, .error e)

/-- Mutable model state touched by `GradAttention.explain`: the train/eval
mode flag and the `requires_grad` flag of each parameter. -/
structure MState where
  training : Bool
  paramRG : Nat → Bool

/-- Maximum over the `C` channels of the absolute gradient value at one
pixel: `input.grad.data.abs().max(1)`. -/
def chanMax (C : Nat) (g : D4) (n i j : Nat) : ℚ :=
  ((List.range C).map (fun c => |g n c i j|)).foldr max 0

/-- Embedding of `GradAttention.explain`: freezes every parameter
(`requires_grad = False`), forces eval mode, sets the input's
`requires_grad` to `True`, takes one forward pass, the arg-max predicted
label, one backward pass, and returns the channel-max of the absolute input
gradient as an `(N, 1, H, W)` saliency map.  Nothing is restored. -/
def explain (M : ModelOracle) (st : MState) (input : TTensor) :
    MState × TTensor × TTensor :=
  let inputAfter : TTensor :=
    { dims := input.dims, data := input.data, requiresGrad := true }
  let stAfter : MState := { training := false, paramRG := fun _ => false }
  let pred : Nat → Nat :=
    fun n => argmaxIdx M.numClasses (fun k => M.logits input.data n k)
  let g : D4 := M.gradLoss pred input.data
  let sal : TTensor :=
    { dims := (input.dims.1, 1, input.dims.2.2.1, input.dims.2.2.2)
      data := fun n c i j => if c = 0 then chanMax input.dims.2.1 g n i j else 0
      requiresGrad := false }
  (stAfter, inputAfter, sal)

/-- Trivial concrete model oracle: one class, zero logits, zero gradients,
never failing. -/
def trivialOracle : ModelOracle :=
  { numClasses := 1
    logits := fun _ _ _ => 0
    gradLoss := fun _ _ => fun _ _ _ _ => 0
    fails := fun _ => false }

/-- Concrete model oracle whose forward pass always raises. -/
def failingOracle : ModelOracle :=
  { numClasses := 1
    logits := fun _ _ _ => 0
    gradLoss := fun _ _ => fun _ _ _ _ => 0
    fails := fun _ => true }

/-- Concrete all-zero input tensor of shape (1, 1, 1, 1). -/
def zeroInput : TTensor :=
  { dims := (1, 1, 1, 1), data := fun _ _ _ _ => 0, requiresGrad := true }

/-- Concrete model state: training mode, every parameter trainable. -/
def allTrainState : MState :=
  { training := true, paramRG := fun _ => true }

/-- Splitting a sum over `range (m + n)` into two blocks. -/
theorem sum_range_add_split (f : Nat → ℚ) (m n : Nat) :
    ∑ r in Finset.range (m + n), f r
      = (∑ r in Finset.range m, f r) + ∑ j in Finset.range n, f (m + j) := by
  induction n with
  | zero => simp
  | succ k ih =>
    rw [Nat.add_succ, Finset.sum_range_succ, ih, Finset.sum_range_succ, add_assoc]

/-- Reindexing a sum over `range (a * b)` as a double sum, `r = i·b + j`. -/
theorem sum_range_mul_split (f : Nat → ℚ) (a b : Nat) :
    ∑ r in Finset.range (a * b), f r
      = ∑ i in Finset.range a, ∑ j in Finset.range b, f (i * b + j) := by
  induction a with
  | zero => simp
  | succ k ih =>
    rw [Nat.succ_mul, sum_range_add_split, ih, Finset.sum_range_succ]

theorem mul_add_div_eq (b i j : Nat) (hb : 0 < b) (hj : j < b) :
    (i * b + j) / b = i := by
  rw [Nat.mul_comm i b, Nat.mul_add_div hb, Nat.div_eq_of_lt hj, Nat.add_zero]

theorem mul_add_mod_eq (b i j : Nat) (hj : j < b) : (i * b + j) % b = j := by
  rw [Nat.mul_comm i b, Nat.mul_add_mod, Nat.mod_eq_of_lt hj]

theorem kernel_flat_lt (K ki kj : Nat) (hki : ki < K) (hkj : kj < K) :
    ki * K + kj < K * K := by
  have h1 : ki * K + kj < (ki + 1) * K := by rw [Nat.succ_mul]; omega
  exact lt_of_lt_of_le h1 (Nat.mul_le_mul_right K hki)

theorem rIdx_c (K ci ki kj : Nat) (hki : ki < K) (hkj : kj < K) :
    (ci * (K * K) + ki * K + kj) / (K * K) = ci := by
  have hK : 0 < K := Nat.lt_of_le_of_lt (Nat.zero_le ki) hki
  rw [add_assoc]
  exact mul_add_div_eq (K * K) ci (ki * K + kj) (Nat.mul_pos hK hK)
    (kernel_flat_lt K ki kj hki hkj)

theorem rIdx_ki (K ci ki kj : Nat) (hki : ki < K) (hkj : kj < K) :
    ((ci * (K * K) + ki * K + kj) % (K * K)) / K = ki := by
  have hK : 0 < K := Nat.lt_of_le_of_lt (Nat.zero_le ki) hki
  rw [add_assoc, mul_add_mod_eq (K * K) ci (ki * K + kj) (kernel_flat_lt K ki kj hki hkj)]
  exact mul_add_div_eq K ki kj hK hkj

theorem rIdx_kj (K ci ki kj : Nat) (hkj : kj < K) :
    (ci * (K * K) + ki * K + kj) % K = kj := by
  have h : ci * (K * K) + ki * K + kj = (ci * K + ki) * K + kj := by ring
  rw [h, mul_add_mod_eq K (ci * K + ki) kj hkj]

/-- The output spatial size is always positive. -/
theorem outDim_pos (size K p s : Nat) : 0 < outDim size K p s :=
  Nat.succ_pos _

/-- Evaluating the flattened weight matrix at a structured column index. -/
theorem wFlat_apply (w : D4) (K co ci ki kj : Nat) (hki : ki < K) (hkj : kj < K) :
    wFlat w K co (ci * (K * K) + ki * K + kj) = w co ci ki kj := by
  unfold wFlat
  rw [rIdx_c K ci ki kj hki hkj, rIdx_ki K ci ki kj hki hkj, rIdx_kj K ci ki kj hkj]

/-- Evaluating the unfolded input at structured row and column indices. -/
theorem unfoldT_apply (x : D4) (H W K p s : Nat) (n ci ki kj oh ow : Nat)
    (hki : ki < K) (hkj : kj < K) (how : ow < outDim W K p s) :
    unfoldT x H W K p s n (ci * (K * K) + ki * K + kj) (oh * outDim W K p s + ow)
      = paddedAt x H W p n ci (oh * s + ki) (ow * s + kj) := by
  unfold unfoldT
  rw [rIdx_c K ci ki kj hki hkj, rIdx_ki K ci ki kj hki hkj, rIdx_kj K ci ki kj hkj,
    mul_add_div_eq (outDim W K p s) oh ow (outDim_pos W K p s) how,
    mul_add_mod_eq (outDim W K p s) oh ow how]

/-- Evaluating the flattened gradient at a structured column index. -/
theorem gFlat_apply (g : D4) (Wo n co oh ow : Nat) (how : ow < Wo) :
    gFlat g Wo n co (oh * Wo + ow) = g n co oh ow := by
  have hWo : 0 < Wo := Nat.lt_of_le_of_lt (Nat.zero_le ow) how
  unfold gFlat
  rw [mul_add_div_eq Wo oh ow hWo how, mul_add_mod_eq Wo oh ow how]

/-- C1: for every valid input (positive stride, kernel fitting in the padded
input) and every output position, `CustomConv2DFunction.forward` — flatten
the weight, unfold the input, per-batch matrix product, broadcast bias,
reshape — returns exactly the naive triple-nested-loop reference convolution
`w*x + b`. -/
theorem conv_forward_matches_naive (x w : D4) (b : Nat → ℚ) (useBias : Bool)
    (Ci H W K p s : Nat) (n co oh ow : Nat)
    (hs : 0 < s) (hfitH : K ≤ H + 2 * p) (hfitW : K ≤ W + 2 * p)
    (hoh : oh < outDim H K p s) (how : ow < outDim W K p s) :
    convOut x w b useBias Ci H W K p s n co oh ow
      = naiveConv x w b useBias Ci H W K p s n co oh ow := by
  unfold convOut naiveConv
  congr 1
  rw [sum_range_mul_split]
  refine Finset.sum_congr rfl fun ci _ => ?_
  rw [sum_range_mul_split]
  refine Finset.sum_congr rfl fun ki hki => Finset.sum_congr rfl fun kj hkj => ?_
  rw [← add_assoc,
    wFlat_apply w K co ci ki kj (Finset.mem_range.mp hki) (Finset.mem_range.mp hkj),
    unfoldT_apply x H W K p s n ci ki kj oh ow (Finset.mem_range.mp hki)
      (Finset.mem_range.mp hkj) how]

/-- Witness for C1 at a concrete valid input. -/
theorem conv_forward_matches_naive_witness :
    0 < 1 ∧ (1 ≤ 1 + 2 * 0) ∧ (0 < outDim 1 1 0 1)
    ∧ convOut (fun _ _ _ _ => 2) (fun _ _ _ _ => 3) (fun _ => 5) true 1 1 1 1 0 1 0 0 0 0
        = naiveConv (fun _ _ _ _ => 2) (fun _ _ _ _ => 3) (fun _ => 5) true 1 1 1 1 0 1 0 0 0 0 :=
  ⟨by decide, by decide, by decide,
    conv_forward_matches_naive (fun _ _ _ _ => 2) (fun _ _ _ _ => 3) (fun _ => 5) true
      1 1 1 1 0 1 0 0 0 0 (by decide) (by decide) (by decide) (by decide) (by decide)⟩

/-- Splitting an if on a conjunction into nested ifs. -/
theorem ite_and_zero {A B : Prop} [Decidable A] [Decidable B] (v : ℚ) :
    (if A ∧ B then v else 0) = if A then (if B then v else 0) else 0 := by
  by_cases hA : A <;> by_cases hB : B <;> simp [hA, hB]

/-- Summing an indicator over `range H` picks the matching index. -/
theorem sum_range_ite_eq (H t : Nat) (h : Nat → ℚ) :
    ∑ i in Finset.range H, (if i = t then h i else 0) = if t < H then h t else 0 := by
  rw [Finset.sum_ite_eq' (Finset.range H) t h]
  simp [Finset.mem_range]

/-- Summing an indicator on `a = i + p` over `range H`. -/
theorem sum_pad_row (H p a : Nat) (h : Nat → ℚ) :
    ∑ i in Finset.range H, (if a = i + p then h i else 0)
      = if p ≤ a ∧ a < H + p then h (a - p) else 0 := by
  by_cases hp : p ≤ a
  · have hcong : ∀ i, (if a = i + p then h i else 0) = (if i = a - p then h i else 0) :=
      fun i => if_congr (by omega) rfl rfl
    rw [Finset.sum_congr rfl (fun i _ => hcong i), sum_range_ite_eq]
    have hiff : (a - p < H) ↔ (a < H + p) := by omega
    by_cases h2 : a < H + p
    · rw [if_pos (hiff.mpr h2), if_pos ⟨hp, h2⟩]
    · rw [if_neg (fun hh => h2 (hiff.mp hh)), if_neg (by tauto)]
  · rw [Finset.sum_eq_zero (fun i _ => by rw [if_neg (by omega)]), if_neg (by tauto)]

/-- The padded read as a double indicator sum over the original grid. -/
theorem padded_eq_sum (x : D4) (H W p n c a b : Nat) :
    paddedAt x H W p n c a b
      = ∑ i in Finset.range H, ∑ j in Finset.range W,
          (if a = i + p ∧ b = j + p then x n c i j else 0) := by
  have inner : ∀ i, ∑ j in Finset.range W, (if a = i + p ∧ b = j + p then x n c i j else 0)
      = if a = i + p then (if p ≤ b ∧ b < W + p then x n c i (b - p) else 0) else 0 := by
    intro i
    by_cases hi : a = i + p
    · rw [if_pos hi,
        Finset.sum_congr rfl (fun j _ => by rw [ite_and_zero, if_pos hi]),
        sum_pad_row W p b (fun j => x n c i j)]
    · rw [if_neg hi, Finset.sum_eq_zero (fun j _ => by rw [ite_and_zero, if_neg hi])]
  rw [Finset.sum_congr rfl (fun i _ => inner i),
    sum_pad_row H p a (fun i => if p ≤ b ∧ b < W + p then x n c i (b - p) else 0)]
  unfold paddedAt
  by_cases hA : p ≤ a ∧ a < H + p
  · by_cases hB : p ≤ b ∧ b < W + p
    · rw [if_pos hA, if_pos hB, if_pos (by tauto)]
    · rw [if_pos hA, if_neg hB, if_neg (by tauto)]
  · rw [if_neg hA, if_neg (by tauto)]

/-- Characterization of the window positions covering a padded coordinate. -/
theorem window_eq_iff (s ki pi oh : Nat) (hs : 0 < s) :
    (oh * s + ki = pi) ↔ (ki ≤ pi ∧ (pi - ki) % s = 0 ∧ oh = (pi - ki) / s) := by
  constructor
  · intro h
    have h1 : ki ≤ pi := by omega
    have h2 : pi - ki = oh * s := by omega
    refine ⟨h1, by rw [h2]; exact Nat.mul_mod_left oh s, ?_⟩
    rw [h2, Nat.mul_comm oh s, Nat.mul_div_cancel_left oh hs]
  · rintro ⟨h1, h2, h3⟩
    have h4 : (pi - ki) / s * s = pi - ki := Nat.div_mul_cancel (Nat.dvd_of_mod_eq_zero h2)
    subst h3
    omega

/-- Summing an indicator on `oh·s + ki = pi` over the output range collapses
to the fold guard. -/
theorem sum_window_row (Ho s ki pi : Nat) (hs : 0 < s) (g : Nat → ℚ) :
    ∑ oh in Finset.range Ho, (if oh * s + ki = pi then g oh else 0)
      = if ki ≤ pi ∧ (pi - ki) % s = 0 ∧ (pi - ki) / s < Ho
        then g ((pi - ki) / s) else 0 := by
  have hcong : ∀ oh, (if oh * s + ki = pi then g oh else 0)
      = if (ki ≤ pi ∧ (pi - ki) % s = 0) ∧ oh = (pi - ki) / s then g oh else 0 :=
    fun oh => if_congr (by rw [window_eq_iff s ki pi oh hs]; tauto) rfl rfl
  rw [Finset.sum_congr rfl (fun oh _ => hcong oh)]
  by_cases hg : ki ≤ pi ∧ (pi - ki) % s = 0
  · rw [Finset.sum_congr rfl
      (fun oh _ => if_congr (show ((ki ≤ pi ∧ (pi - ki) % s = 0) ∧ oh = (pi - ki) / s)
        ↔ oh = (pi - ki) / s by tauto) rfl rfl), sum_range_ite_eq]
    by_cases hlt : (pi - ki) / s < Ho
    · rw [if_pos hlt, if_pos ⟨hg.1, hg.2, hlt⟩]
    · rw [if_neg hlt, if_neg (by tauto)]
  · rw [Finset.sum_eq_zero (fun oh _ => by rw [if_neg (by tauto)]), if_neg (by tauto)]

/-- The fold (scatter-add) value as an indicator sum over all window
positions and kernel offsets mapping to the grid position `(i, j)`. -/
theorem foldT_eq_sum (cols : D3) (H W K p s : Nat) (hs : 0 < s) (n c i j : Nat) :
    foldT cols H W K p s n c i j
      = ∑ ki in Finset.range K, ∑ kj in Finset.range K,
          ∑ oh in Finset.range (outDim H K p s), ∑ ow in Finset.range (outDim W K p s),
            (if oh * s + ki = i + p ∧ ow * s + kj = j + p
            then cols n (c * (K * K) + ki * K + kj) (oh * outDim W K p s + ow) else 0) := by
  unfold foldT
  refine Finset.sum_congr rfl fun ki _ => Finset.sum_congr rfl fun kj _ => Eq.symm ?_
  have step1 : ∀ oh, ∑ ow in Finset.range (outDim W K p s),
      (if oh * s + ki = i + p ∧ ow * s + kj = j + p
        then cols n (c * (K * K) + ki * K + kj) (oh * outDim W K p s + ow) else 0)
      = if oh * s + ki = i + p then
          (if kj ≤ j + p ∧ (j + p - kj) % s = 0 ∧ (j + p - kj) / s < outDim W K p s
            then cols n (c * (K * K) + ki * K + kj)
              (oh * outDim W K p s + (j + p - kj) / s) else 0) else 0 := by
    intro oh
    by_cases hA : oh * s + ki = i + p
    · rw [if_pos hA,
        Finset.sum_congr rfl (fun ow _ => if_congr
          (show (oh * s + ki = i + p ∧ ow * s + kj = j + p) ↔ ow * s + kj = j + p by tauto)
          rfl rfl),
        sum_window_row (outDim W K p s) s kj (j + p) hs
          (fun ow => cols n (c * (K * K) + ki * K + kj) (oh * outDim W K p s + ow))]
    · rw [if_neg hA, Finset.sum_eq_zero (fun ow _ => by rw [if_neg (by tauto)])]
  rw [Finset.sum_congr rfl (fun oh _ => step1 oh),
    sum_window_row (outDim H K p s) s ki (i + p) hs
      (fun oh => if kj ≤ j + p ∧ (j + p - kj) % s = 0 ∧ (j + p - kj) / s < outDim W K p s
        then cols n (c * (K * K) + ki * K + kj)
          (oh * outDim W K p s + (j + p - kj) / s) else 0)]
  by_cases hGh : ki ≤ i + p ∧ (i + p - ki) % s = 0 ∧ (i + p - ki) / s < outDim H K p s
  · by_cases hGw : kj ≤ j + p ∧ (j + p - kj) % s = 0 ∧ (j + p - kj) / s < outDim W K p s
    · rw [if_pos hGh, if_pos hGw, if_pos (by tauto)]
    · rw [if_pos hGh, if_neg hGw, if_neg (by tauto)]
  · rw [if_neg hGh, if_neg (by tauto)]

/-- Moving an inner sum across two outer sums. -/
theorem sum_swap_mid1 (sA sB sX : Finset Nat) (G : Nat → Nat → Nat → ℚ) :
    ∑ a in sA, ∑ b in sB, ∑ x in sX, G a b x
      = ∑ x in sX, ∑ a in sA, ∑ b in sB, G a b x :=
  calc ∑ a in sA, ∑ b in sB, ∑ x in sX, G a b x
      = ∑ a in sA, ∑ x in sX, ∑ b in sB, G a b x :=
        Finset.sum_congr rfl (fun _ _ => Finset.sum_comm)
    _ = ∑ x in sX, ∑ a in sA, ∑ b in sB, G a b x := Finset.sum_comm

/-- Moving an inner sum across three outer sums. -/
theorem sum_swap_mid2 (sA sB sC sX : Finset Nat) (G : Nat → Nat → Nat → Nat → ℚ) :
    ∑ a in sA, ∑ b in sB, ∑ c in sC, ∑ x in sX, G a b c x
      = ∑ x in sX, ∑ a in sA, ∑ b in sB, ∑ c in sC, G a b c x :=
  calc ∑ a in sA, ∑ b in sB, ∑ c in sC, ∑ x in sX, G a b c x
      = ∑ a in sA, ∑ x in sX, ∑ b in sB, ∑ c in sC, G a b c x :=
        Finset.sum_congr rfl (fun a _ => sum_swap_mid1 sB sC sX (fun b c x => G a b c x))
    _ = ∑ x in sX, ∑ a in sA, ∑ b in sB, ∑ c in sC, G a b c x := Finset.sum_comm

/-- Moving an inner sum across four outer sums. -/
theorem sum_swap_mid3 (sA sB sC sD sX : Finset Nat)
    (G : Nat → Nat → Nat → Nat → Nat → ℚ) :
    ∑ a in sA, ∑ b in sB, ∑ c in sC, ∑ d in sD, ∑ x in sX, G a b c d x
      = ∑ x in sX, ∑ a in sA, ∑ b in sB, ∑ c in sC, ∑ d in sD, G a b c d x :=
  calc ∑ a in sA, ∑ b in sB, ∑ c in sC, ∑ d in sD, ∑ x in sX, G a b c d x
      = ∑ a in sA, ∑ x in sX, ∑ b in sB, ∑ c in sC, ∑ d in sD, G a b c d x :=
        Finset.sum_congr rfl
          (fun a _ => sum_swap_mid2 sB sC sD sX (fun b c d x => G a b c d x))
    _ = _ := Finset.sum_comm

/-- Fold is the linear adjoint of unfold: pairing a column matrix against the
unfolded input equals pairing its fold against the original input. -/
theorem unfold_fold_adjoint (cols : D3) (x : D4) (C H W K p s n : Nat) (hs : 0 < s) :
    ∑ r in Finset.range (C * (K * K)),
      ∑ l in Finset.range (outDim H K p s * outDim W K p s),
        cols n r l * unfoldT x H W K p s n r l
      = ∑ c in Finset.range C, ∑ i in Finset.range H, ∑ j in Finset.range W,
          foldT cols H W K p s n c i j * x n c i j := by
  have lhs_eq : ∑ r in Finset.range (C * (K * K)),
      ∑ l in Finset.range (outDim H K p s * outDim W K p s),
        cols n r l * unfoldT x H W K p s n r l
      = ∑ c in Finset.range C, ∑ ki in Finset.range K, ∑ kj in Finset.range K,
          ∑ oh in Finset.range (outDim H K p s), ∑ ow in Finset.range (outDim W K p s),
            ∑ i in Finset.range H, ∑ j in Finset.range W,
              (if oh * s + ki = i + p ∧ ow * s + kj = j + p
                then cols n (c * (K * K) + ki * K + kj) (oh * outDim W K p s + ow)
                  * x n c i j else 0) := by
    rw [sum_range_mul_split]
    refine Finset.sum_congr rfl fun c _ => ?_
    rw [sum_range_mul_split]
    refine Finset.sum_congr rfl fun ki hki => Finset.sum_congr rfl fun kj hkj => ?_
    rw [sum_range_mul_split]
    refine Finset.sum_congr rfl fun oh hoh => Finset.sum_congr rfl fun ow how => ?_
    rw [← add_assoc,
      unfoldT_apply x H W K p s n c ki kj oh ow (Finset.mem_range.mp hki)
        (Finset.mem_range.mp hkj) (Finset.mem_range.mp how),
      padded_eq_sum x H W p n c (oh * s + ki) (ow * s + kj), Finset.mul_sum]
    refine Finset.sum_congr rfl fun i _ => ?_
    rw [Finset.mul_sum]
    refine Finset.sum_congr rfl fun j _ => ?_
    rw [mul_ite, mul_zero]
  have rhs_eq : ∑ c in Finset.range C, ∑ i in Finset.range H, ∑ j in Finset.range W,
      foldT cols H W K p s n c i j * x n c i j
      = ∑ c in Finset.range C, ∑ i in Finset.range H, ∑ j in Finset.range W,
          ∑ ki in Finset.range K, ∑ kj in Finset.range K,
            ∑ oh in Finset.range (outDim H K p s), ∑ ow in Finset.range (outDim W K p s),
              (if oh * s + ki = i + p ∧ ow * s + kj = j + p
                then cols n (c * (K * K) + ki * K + kj) (oh * outDim W K p s + ow)
                  * x n c i j else 0) := by
    refine Finset.sum_congr rfl fun c _ => Finset.sum_congr rfl fun i _ =>
      Finset.sum_congr rfl fun j _ => ?_
    rw [foldT_eq_sum cols H W K p s hs n c i j, Finset.sum_mul]
    refine Finset.sum_congr rfl fun ki _ => ?_
    rw [Finset.sum_mul]
    refine Finset.sum_congr rfl fun kj _ => ?_
    rw [Finset.sum_mul]
    refine Finset.sum_congr rfl fun oh _ => ?_
    rw [Finset.sum_mul]
    refine Finset.sum_congr rfl fun ow _ => ?_
    rw [ite_mul, zero_mul]
  rw [lhs_eq, rhs_eq]
  refine Finset.sum_congr rfl fun c _ => ?_
  calc ∑ ki in Finset.range K, ∑ kj in Finset.range K,
        ∑ oh in Finset.range (outDim H K p s), ∑ ow in Finset.range (outDim W K p s),
          ∑ i in Finset.range H, ∑ j in Finset.range W,
            (if oh * s + ki = i + p ∧ ow * s + kj = j + p
              then cols n (c * (K * K) + ki * K + kj) (oh * outDim W K p s + ow)
                * x n c i j else 0)
      = ∑ i in Finset.range H, ∑ ki in Finset.range K, ∑ kj in Finset.range K,
          ∑ oh in Finset.range (outDim H K p s), ∑ ow in Finset.range (outDim W K p s),
            ∑ j in Finset.range W,
              (if oh * s + ki = i + p ∧ ow * s + kj = j + p
                then cols n (c * (K * K) + ki * K + kj) (oh * outDim W K p s + ow)
                  * x n c i j else 0) :=
        sum_swap_mid3 (Finset.range K) (Finset.range K) (Finset.range (outDim H K p s))
          (Finset.range (outDim W K p s)) (Finset.range H)
          (fun ki kj oh ow i => ∑ j in Finset.range W,
            (if oh * s + ki = i + p ∧ ow * s + kj = j + p
              then cols n (c * (K * K) + ki * K + kj) (oh * outDim W K p s + ow)
                * x n c i j else 0))
    _ = ∑ i in Finset.range H, ∑ j in Finset.range W,
          ∑ ki in Finset.range K, ∑ kj in Finset.range K,
            ∑ oh in Finset.range (outDim H K p s), ∑ ow in Finset.range (outDim W K p s),
              (if oh * s + ki = i + p ∧ ow * s + kj = j + p
                then cols n (c * (K * K) + ki * K + kj) (oh * outDim W K p s + ow)
                  * x n c i j else 0) :=
        Finset.sum_congr rfl (fun i _ =>
          sum_swap_mid3 (Finset.range K) (Finset.range K) (Finset.range (outDim H K p s))
            (Finset.range (outDim W K p s)) (Finset.range W)
            (fun ki kj oh ow j =>
              (if oh * s + ki = i + p ∧ ow * s + kj = j + p
                then cols n (c * (K * K) + ki * K + kj) (oh * outDim W K p s + ow)
                  * x n c i j else 0)))

/-- With a zero bias function the bias branch of the forward output vanishes. -/
theorem convOut_nobias (x w : D4) (useBias : Bool) (Ci H W K p s n co oh ow : Nat) :
    convOut x w (fun _ => 0) useBias Ci H W K p s n co oh ow
      = ∑ r in Finset.range (Ci * (K * K)),
          wFlat w K co r * unfoldT x H W K p s n r (oh * outDim W K p s + ow) := by
  simp [convOut]

/-- The input gradient of backward is the adjoint of the forward map in its
input argument: pairing it against any input direction equals pairing the
output gradient against the forward response to that direction. -/
theorem gradInput_adjoint (N Ci Co H W K p s : Nat) (g w dx : D4) (hs : 0 < s) :
    dot4 N Ci H W (gradInputT g w Co H W K p s) dx
      = dot4 N Co (outDim H K p s) (outDim W K p s) g
          (convOut dx w (fun _ => 0) false Ci H W K p s) := by
  symm
  unfold dot4
  refine Finset.sum_congr rfl fun n _ => ?_
  have step1 : ∑ co in Finset.range Co, ∑ oh in Finset.range (outDim H K p s),
      ∑ ow in Finset.range (outDim W K p s),
        g n co oh ow * convOut dx w (fun _ => 0) false Ci H W K p s n co oh ow
      = ∑ co in Finset.range Co,
          ∑ l in Finset.range (outDim H K p s * outDim W K p s),
            gFlat g (outDim W K p s) n co l
              * ∑ r in Finset.range (Ci * (K * K)),
                  wFlat w K co r * unfoldT dx H W K p s n r l := by
    refine Finset.sum_congr rfl fun co _ => ?_
    rw [sum_range_mul_split (fun l => gFlat g (outDim W K p s) n co l
      * ∑ r in Finset.range (Ci * (K * K)), wFlat w K co r * unfoldT dx H W K p s n r l)
      (outDim H K p s) (outDim W K p s)]
    refine Finset.sum_congr rfl fun oh _ => Finset.sum_congr rfl fun ow how => ?_
    rw [gFlat_apply g (outDim W K p s) n co oh ow (Finset.mem_range.mp how),
      convOut_nobias dx w false Ci H W K p s n co oh ow]
  have step2 : ∑ co in Finset.range Co,
      ∑ l in Finset.range (outDim H K p s * outDim W K p s),
        gFlat g (outDim W K p s) n co l
          * ∑ r in Finset.range (Ci * (K * K)),
              wFlat w K co r * unfoldT dx H W K p s n r l
      = ∑ r in Finset.range (Ci * (K * K)),
          ∑ l in Finset.range (outDim H K p s * outDim W K p s),
            gradInputCols g w Co K (outDim W K p s) n r l * unfoldT dx H W K p s n r l := by
    calc ∑ co in Finset.range Co,
        ∑ l in Finset.range (outDim H K p s * outDim W K p s),
          gFlat g (outDim W K p s) n co l
            * ∑ r in Finset.range (Ci * (K * K)),
                wFlat w K co r * unfoldT dx H W K p s n r l
        = ∑ l in Finset.range (outDim H K p s * outDim W K p s),
            ∑ co in Finset.range Co,
              gFlat g (outDim W K p s) n co l
                * ∑ r in Finset.range (Ci * (K * K)),
                    wFlat w K co r * unfoldT dx H W K p s n r l := Finset.sum_comm
      _ = ∑ l in Finset.range (outDim H K p s * outDim W K p s),
            ∑ co in Finset.range Co, ∑ r in Finset.range (Ci * (K * K)),
              gFlat g (outDim W K p s) n co l
                * (wFlat w K co r * unfoldT dx H W K p s n r l) :=
          Finset.sum_congr rfl (fun l _ => Finset.sum_congr rfl (fun co _ =>
            Finset.mul_sum (Finset.range (Ci * (K * K)))
              (fun r => wFlat w K co r * unfoldT dx H W K p s n r l)
              (gFlat g (outDim W K p s) n co l)))
      _ = ∑ l in Finset.range (outDim H K p s * outDim W K p s),
            ∑ r in Finset.range (Ci * (K * K)), ∑ co in Finset.range Co,
              gFlat g (outDim W K p s) n co l
                * (wFlat w K co r * unfoldT dx H W K p s n r l) :=
          Finset.sum_congr rfl (fun l _ => Finset.sum_comm)
      _ = ∑ l in Finset.range (outDim H K p s * outDim W K p s),
            ∑ r in Finset.range (Ci * (K * K)),
              gradInputCols g w Co K (outDim W K p s) n r l
                * unfoldT dx H W K p s n r l := by
          refine Finset.sum_congr rfl fun l _ => Finset.sum_congr rfl fun r _ => ?_
          unfold gradInputCols
          rw [Finset.sum_mul]
          exact Finset.sum_congr rfl fun co _ => by ring
      _ = ∑ r in Finset.range (Ci * (K * K)),
            ∑ l in Finset.range (outDim H K p s * outDim W K p s),
              gradInputCols g w Co K (outDim W K p s) n r l
                * unfoldT dx H W K p s n r l := Finset.sum_comm
  rw [step1, step2,
    unfold_fold_adjoint (gradInputCols g w Co K (outDim W K p s)) dx Ci H W K p s n hs]
  rfl

/-- The weight gradient of backward is the adjoint of the forward map in its
weight argument. -/
theorem gradWeight_adjoint (N Ci Co H W K p s : Nat) (g x dw : D4) :
    dot4 Co Ci K K
      (gradWeightT g (unfoldT x H W K p s) N K (outDim H K p s) (outDim W K p s)) dw
      = dot4 N Co (outDim H K p s) (outDim W K p s) g
          (convOut x dw (fun _ => 0) false Ci H W K p s) := by
  have lhs_eq : ∑ co in Finset.range Co, ∑ r in Finset.range (Ci * (K * K)),
      ∑ m in Finset.range N, ∑ l in Finset.range (outDim H K p s * outDim W K p s),
        wFlat dw K co r * (gFlat g (outDim W K p s) m co l * unfoldT x H W K p s m r l)
      = dot4 Co Ci K K
          (gradWeightT g (unfoldT x H W K p s) N K (outDim H K p s) (outDim W K p s)) dw := by
    unfold dot4
    refine Finset.sum_congr rfl fun co _ => ?_
    rw [sum_range_mul_split]
    refine Finset.sum_congr rfl fun ci _ => ?_
    rw [sum_range_mul_split]
    refine Finset.sum_congr rfl fun ki hki => Finset.sum_congr rfl fun kj hkj => ?_
    rw [← add_assoc,
      wFlat_apply dw K co ci ki kj (Finset.mem_range.mp hki) (Finset.mem_range.mp hkj)]
    unfold gradWeightT
    rw [Finset.sum_mul]
    refine Finset.sum_congr rfl fun m _ => ?_
    rw [Finset.sum_mul]
    refine Finset.sum_congr rfl fun l _ => ?_
    ring
  have rhs_eq : dot4 N Co (outDim H K p s) (outDim W K p s) g
      (convOut x dw (fun _ => 0) false Ci H W K p s)
      = ∑ co in Finset.range Co, ∑ r in Finset.range (Ci * (K * K)),
          ∑ m in Finset.range N, ∑ l in Finset.range (outDim H K p s * outDim W K p s),
            wFlat dw K co r * (gFlat g (outDim W K p s) m co l * unfoldT x H W K p s m r l) := by
    unfold dot4
    have hn : ∀ m, ∑ co in Finset.range Co, ∑ oh in Finset.range (outDim H K p s),
        ∑ ow in Finset.range (outDim W K p s),
          g m co oh ow * convOut x dw (fun _ => 0) false Ci H W K p s m co oh ow
        = ∑ co in Finset.range Co,
            ∑ l in Finset.range (outDim H K p s * outDim W K p s),
              ∑ r in Finset.range (Ci * (K * K)),
                wFlat dw K co r
                  * (gFlat g (outDim W K p s) m co l * unfoldT x H W K p s m r l) := by
      intro m
      refine Finset.sum_congr rfl fun co _ => ?_
      rw [sum_range_mul_split (fun l => ∑ r in Finset.range (Ci * (K * K)),
        wFlat dw K co r * (gFlat g (outDim W K p s) m co l * unfoldT x H W K p s m r l))
        (outDim H K p s) (outDim W K p s)]
      refine Finset.sum_congr rfl fun oh _ => Finset.sum_congr rfl fun ow how => ?_
      rw [convOut_nobias x dw false Ci H W K p s m co oh ow,
        gFlat_apply g (outDim W K p s) m co oh ow (Finset.mem_range.mp how), Finset.mul_sum]
      refine Finset.sum_congr rfl fun r _ => ?_
      ring
    calc ∑ m in Finset.range N, ∑ co in Finset.range Co,
          ∑ oh in Finset.range (outDim H K p s), ∑ ow in Finset.range (outDim W K p s),
            g m co oh ow * convOut x dw (fun _ => 0) false Ci H W K p s m co oh ow
        = ∑ m in Finset.range N, ∑ co in Finset.range Co,
            ∑ l in Finset.range (outDim H K p s * outDim W K p s),
              ∑ r in Finset.range (Ci * (K * K)),
                wFlat dw K co r
                  * (gFlat g (outDim W K p s) m co l * unfoldT x H W K p s m r l) :=
          Finset.sum_congr rfl (fun m _ => hn m)
      _ = ∑ co in Finset.range Co, ∑ m in Finset.range N,
            ∑ l in Finset.range (outDim H K p s * outDim W K p s),
              ∑ r in Finset.range (Ci * (K * K)),
                wFlat dw K co r
                  * (gFlat g (outDim W K p s) m co l * unfoldT x H W K p s m r l) :=
          Finset.sum_comm
      _ = ∑ co in Finset.range Co, ∑ r in Finset.range (Ci * (K * K)),
            ∑ m in Finset.range N,
              ∑ l in Finset.range (outDim H K p s * outDim W K p s),
                wFlat dw K co r
                  * (gFlat g (outDim W K p s) m co l * unfoldT x H W K p s m r l) :=
          Finset.sum_congr rfl (fun co _ =>
            sum_swap_mid1 (Finset.range N)
              (Finset.range (outDim H K p s * outDim W K p s))
              (Finset.range (Ci * (K * K)))
              (fun m l r => wFlat dw K co r
                * (gFlat g (outDim W K p s) m co l * unfoldT x H W K p s m r l)))
  rw [rhs_eq]
  exact lhs_eq.symm

/-- The bias gradient of backward is the adjoint of the forward map in its
bias argument. -/
theorem gradBias_adjoint (N Co Ho Wo : Nat) (g : D4) (db : Nat → ℚ) :
    ∑ co in Finset.range Co, gradBiasT g N Ho Wo co * db co
      = dot4 N Co Ho Wo g (fun _ co _ _ => db co) := by
  unfold gradBiasT dot4
  symm
  rw [Finset.sum_comm]
  refine Finset.sum_congr rfl fun co _ => ?_
  rw [Finset.sum_mul]
  refine Finset.sum_congr rfl fun m _ => ?_
  rw [Finset.sum_mul]
  refine Finset.sum_congr rfl fun oh _ => ?_
  rw [Finset.sum_mul]

/-- C2: for every valid forward invocation and output gradient,
`CustomConv2DFunction.backward` returns the exact gradients of the forward
map: the input gradient (transposed flattened weight times flattened
grad_output, folded back), the weight gradient (batch sum of grad_output
times transposed unfolded patches, reshaped), and the bias gradient
(grad_output summed over batch and both spatial axes) are, respectively, the
adjoints of the forward map in its input, weight, and bias arguments — the
true derivative of the (multi)linear forward map in each argument
independently. -/
theorem conv_backward_exact_gradients (N Ci Co H W K p s : Nat) (x w g : D4)
    (hs : 0 < s) :
    (∀ dx : D4, dot4 N Ci H W (gradInputT g w Co H W K p s) dx
        = dot4 N Co (outDim H K p s) (outDim W K p s) g
            (convOut dx w (fun _ => 0) false Ci H W K p s))
    ∧ (∀ dw : D4, dot4 Co Ci K K
          (gradWeightT g (unfoldT x H W K p s) N K (outDim H K p s) (outDim W K p s)) dw
        = dot4 N Co (outDim H K p s) (outDim W K p s) g
            (convOut x dw (fun _ => 0) false Ci H W K p s))
    ∧ (∀ db : Nat → ℚ,
        ∑ co in Finset.range Co, gradBiasT g N (outDim H K p s) (outDim W K p s) co * db co
          = dot4 N Co (outDim H K p s) (outDim W K p s) g (fun _ co _ _ => db co)) :=
  ⟨fun dx => gradInput_adjoint N Ci Co H W K p s g w dx hs,
    fun dw => gradWeight_adjoint N Ci Co H W K p s g x dw,
    fun db => gradBias_adjoint N Co (outDim H K p s) (outDim W K p s) g db⟩

/-- Witness for C2 at a concrete valid configuration. -/
theorem conv_backward_exact_gradients_witness :
    0 < 1
    ∧ ((∀ dx : D4, dot4 1 1 1 1
          (gradInputT (fun _ _ _ _ => 2) (fun _ _ _ _ => 3) 1 1 1 1 0 1) dx
        = dot4 1 1 (outDim 1 1 0 1) (outDim 1 1 0 1) (fun _ _ _ _ => 2)
            (convOut dx (fun _ _ _ _ => 3) (fun _ => 0) false 1 1 1 1 0 1))
    ∧ (∀ dw : D4, dot4 1 1 1 1
          (gradWeightT (fun _ _ _ _ => 2) (unfoldT (fun _ _ _ _ => 7) 1 1 1 0 1) 1 1
            (outDim 1 1 0 1) (outDim 1 1 0 1)) dw
        = dot4 1 1 (outDim 1 1 0 1) (outDim 1 1 0 1) (fun _ _ _ _ => 2)
            (convOut (fun _ _ _ _ => 7) dw (fun _ => 0) false 1 1 1 1 0 1))
    ∧ (∀ db : Nat → ℚ,
        ∑ co in Finset.range 1,
            gradBiasT (fun _ _ _ _ => 2) 1 (outDim 1 1 0 1) (outDim 1 1 0 1) co * db co
          = dot4 1 1 (outDim 1 1 0 1) (outDim 1 1 0 1) (fun _ _ _ _ => 2)
              (fun _ co _ _ => db co))) :=
  ⟨by decide,
    conv_backward_exact_gradients 1 1 1 1 1 1 0 1
      (fun _ _ _ _ => 7) (fun _ _ _ _ => 3) (fun _ _ _ _ => 2) (by decide)⟩

/-- The overlap multiplicity as an indicator double sum. -/
theorem covCount_eq_sum (size K p s t : Nat) :
    ∑ ki in Finset.range K, ∑ oh in Finset.range (outDim size K p s),
        (if oh * s + ki = t + p then (1 : ℚ) else 0)
      = (covCount size K p s t : ℚ) := by
  rw [Finset.sum_comm]
  unfold covCount
  rw [Finset.card_filter]
  push_cast
  refine Finset.sum_congr rfl fun oh _ => ?_
  by_cases hp : oh * s ≤ t + p
  · rw [Finset.sum_congr rfl (fun ki _ => if_congr
      (show (oh * s + ki = t + p) ↔ (ki = t + p - oh * s) by omega) rfl rfl),
      sum_range_ite_eq K (t + p - oh * s) (fun _ => (1 : ℚ))]
    exact if_congr (by omega) rfl rfl
  · rw [Finset.sum_eq_zero (fun ki _ => by rw [if_neg (by omega)]), if_neg (by omega)]

/-- With no overlap (stride at least the kernel size) each position is
covered by at most one receptive field. -/
theorem covCount_le_one (size K p s t : Nat) (hs : 0 < s) (hKs : K ≤ s) :
    covCount size K p s t ≤ 1 := by
  unfold covCount
  refine Finset.card_le_one.mpr ?_
  intro a ha b hb
  simp only [Finset.mem_filter, Finset.mem_range] at ha hb
  have ha2 : t + p < (a + 1) * s := by rw [Nat.succ_mul]; omega
  have hb2 : t + p < (b + 1) * s := by rw [Nat.succ_mul]; omega
  have haa : (t + p) / s = a := Nat.div_eq_of_lt_le ha.2.1 ha2
  have hbb : (t + p) / s = b := Nat.div_eq_of_lt_le hb.2.1 hb2
  omega

/-- C3 (amended): the fold/unfold round trip scales every element by its
overlap multiplicity — the number of receptive fields covering its padded
position, which may be zero for positions no window reaches — and when
stride is at least the kernel size each multiplicity is at most one. -/
theorem fold_unfold_overlap_multiplicity (x : D4) (H W K p s : Nat) (n c i j : Nat)
    (hs : 0 < s) (hi : i < H) (hj : j < W) :
    foldT (unfoldT x H W K p s) H W K p s n c i j
      = (covCount H K p s i : ℚ) * ((covCount W K p s j : ℚ) * x n c i j)
    ∧ (K ≤ s → covCount H K p s i ≤ 1 ∧ covCount W K p s j ≤ 1) := by
  constructor
  · rw [foldT_eq_sum (unfoldT x H W K p s) H W K p s hs n c i j]
    have hterm : ∀ ki ∈ Finset.range K, ∀ kj ∈ Finset.range K,
        ∀ oh ∈ Finset.range (outDim H K p s), ∀ ow ∈ Finset.range (outDim W K p s),
        (if oh * s + ki = i + p ∧ ow * s + kj = j + p
          then unfoldT x H W K p s n (c * (K * K) + ki * K + kj)
            (oh * outDim W K p s + ow) else 0)
        = (if oh * s + ki = i + p then (1 : ℚ) else 0)
            * ((if ow * s + kj = j + p then (1 : ℚ) else 0) * x n c i j) := by
      intro ki hki kj hkj oh hoh ow how
      by_cases hA : oh * s + ki = i + p
      · by_cases hB : ow * s + kj = j + p
        · rw [if_pos ⟨hA, hB⟩, if_pos hA, if_pos hB,
            unfoldT_apply x H W K p s n c ki kj oh ow (Finset.mem_range.mp hki)
              (Finset.mem_range.mp hkj) (Finset.mem_range.mp how),
            hA, hB]
          unfold paddedAt
          rw [if_pos ⟨Nat.le_add_left p i, Nat.le_add_left p j, by omega, by omega⟩,
            Nat.add_sub_cancel, Nat.add_sub_cancel, one_mul, one_mul]
        · rw [if_neg (by tauto), if_neg hB]
          ring
      · rw [if_neg (by tauto), if_neg hA]
        ring
    rw [Finset.sum_congr rfl (fun ki hki => Finset.sum_congr rfl (fun kj hkj =>
      Finset.sum_congr rfl (fun oh hoh => Finset.sum_congr rfl (fun ow how =>
        hterm ki hki kj hkj oh hoh ow how))))]
    calc ∑ ki in Finset.range K, ∑ kj in Finset.range K,
          ∑ oh in Finset.range (outDim H K p s), ∑ ow in Finset.range (outDim W K p s),
            (if oh * s + ki = i + p then (1 : ℚ) else 0)
              * ((if ow * s + kj = j + p then (1 : ℚ) else 0) * x n c i j)
        = ∑ ki in Finset.range K, ∑ oh in Finset.range (outDim H K p s),
            ∑ kj in Finset.range K, ∑ ow in Finset.range (outDim W K p s),
              (if oh * s + ki = i + p then (1 : ℚ) else 0)
                * ((if ow * s + kj = j + p then (1 : ℚ) else 0) * x n c i j) :=
          Finset.sum_congr rfl (fun ki _ => Finset.sum_comm)
      _ = ∑ ki in Finset.range K, ∑ oh in Finset.range (outDim H K p s),
            (if oh * s + ki = i + p then (1 : ℚ) else 0)
              * ∑ kj in Finset.range K, ∑ ow in Finset.range (outDim W K p s),
                  ((if ow * s + kj = j + p then (1 : ℚ) else 0) * x n c i j) := by
          refine Finset.sum_congr rfl fun ki _ => Finset.sum_congr rfl fun oh _ => ?_
          rw [Finset.mul_sum]
          refine Finset.sum_congr rfl fun kj _ => ?_
          rw [Finset.mul_sum]
      _ = (∑ ki in Finset.range K, ∑ oh in Finset.range (outDim H K p s),
            (if oh * s + ki = i + p then (1 : ℚ) else 0))
              * ∑ kj in Finset.range K, ∑ ow in Finset.range (outDim W K p s),
                  ((if ow * s + kj = j + p then (1 : ℚ) else 0) * x n c i j) := by
          rw [Finset.sum_mul]
          refine Finset.sum_congr rfl fun ki _ => ?_
          rw [Finset.sum_mul]
      _ = (covCount H K p s i : ℚ)
            * ∑ kj in Finset.range K, ∑ ow in Finset.range (outDim W K p s),
                ((if ow * s + kj = j + p then (1 : ℚ) else 0) * x n c i j) := by
          rw [covCount_eq_sum H K p s i]
      _ = (covCount H K p s i : ℚ) * ((covCount W K p s j : ℚ) * x n c i j) := by
          congr 1
          rw [← covCount_eq_sum W K p s j, Finset.sum_mul]
          refine Finset.sum_congr rfl fun kj _ => ?_
          rw [Finset.sum_mul]
  · intro hKs
    exact ⟨covCount_le_one H K p s i hs hKs, covCount_le_one W K p s j hs hKs⟩

/-- Counterexample to C3 as stated: with stride 2 ≥ kernel size 2 on a 3×3
all-ones input, position (2,2) is covered by no receptive field, so the
fold/unfold round trip yields 0 there, not the input value 1. -/
theorem fold_unfold_roundtrip_counterexample :
    2 ≤ 2
    ∧ foldT (unfoldT (fun _ _ _ _ => (1 : ℚ)) 3 3 2 0 2) 3 3 2 0 2 0 0 2 2
        ≠ (fun _ _ _ _ => (1 : ℚ)) 0 0 2 2 := by
  refine ⟨le_refl 2, ?_⟩
  simp [foldT, unfoldT, outDim, paddedAt, Finset.sum_range_succ]

/-- Witness for the amended C3 at a concrete valid input. -/
theorem fold_unfold_overlap_multiplicity_witness :
    0 < 1 ∧ 1 < 2
    ∧ (foldT (unfoldT (fun _ _ _ _ => 5) 2 2 1 0 1) 2 2 1 0 1 0 0 1 1
        = (covCount 2 1 0 1 1 : ℚ) * ((covCount 2 1 0 1 1 : ℚ)
            * (fun (_ _ _ _ : Nat) => (5 : ℚ)) 0 0 1 1)
      ∧ (1 ≤ 1 → covCount 2 1 0 1 1 ≤ 1 ∧ covCount 2 1 0 1 1 ≤ 1)) :=
  ⟨by decide, by decide,
    fold_unfold_overlap_multiplicity (fun _ _ _ _ => 5) 2 2 1 0 1 0 0 1 1
      (by decide) (by decide) (by decide)⟩

/-- C4: `CustomConv2DFunction.forward` aborts with a precondition failure
(no partial output) exactly when the kernel is non-square, the channel
counts mismatch, the stride is not positive, the padding is negative, or
the kernel exceeds the padded input in height or width; it succeeds on all
inputs satisfying all five conditions. -/
theorem conv_forward_precondition_iff (x w : D4) (b : Option (Nat → ℚ))
    (CiX CiW K1 K2 H W : Nat) (stride padding : Int) :
    convForwardChecked x w b CiX CiW K1 K2 H W stride padding = none
      ↔ (K1 ≠ K2 ∨ CiX ≠ CiW ∨ stride ≤ 0 ∨ padding < 0
          ∨ (H : Int) + 2 * padding < (K1 : Int) ∨ (W : Int) + 2 * padding < (K1 : Int)) := by
  unfold convForwardChecked
  by_cases h : K1 = K2 ∧ CiX = CiW ∧ 0 < stride ∧ 0 ≤ padding
      ∧ (K1 : Int) ≤ (H : Int) + 2 * padding ∧ (K1 : Int) ≤ (W : Int) + 2 * padding
  · rw [if_pos h]
    obtain ⟨h1, h2, h3, h4, h5, h6⟩ := h
    constructor
    · intro hc
      exact absurd hc (by simp)
    · intro hd
      rcases hd with hd | hd | hd | hd | hd | hd <;> omega
  · rw [if_neg h]
    constructor
    · intro _
      by_contra hR
      push_neg at hR
      obtain ⟨a1, a2, a3, a4, a5, a6⟩ := hR
      exact h ⟨a1, a2, by omega, by omega, by omega, by omega⟩
    · intro _
      rfl

/-- Clamping to the box always lands within `eps` of the center. -/
theorem clampBox_abs_le (center : D4) (eps : ℚ) (v : D4) (heps : 0 ≤ eps)
    (n c i j : Nat) : |clampBox center eps v n c i j - center n c i j| ≤ eps := by
  unfold clampBox
  have h1 : center n c i j - eps
      ≤ max (min (v n c i j) (center n c i j + eps)) (center n c i j - eps) :=
    le_max_right _ _
  have h2 : max (min (v n c i j) (center n c i j + eps)) (center n c i j - eps)
      ≤ center n c i j + eps :=
    max_le (min_le_right _ _) (by linarith)
  rw [abs_le]
  constructor <;> linarith

/-- C5 (amended, requiring `0 ≤ eps`): every iteration of
`PGDAttack.perturb` ends with a candidate inside the L-infinity `eps`-box
around the original input, and with `num_steps = 0` the returned tensor's
values equal the input's values unchanged. -/
theorem pgd_linf_box_and_zero_steps (M : ModelOracle) (training : Bool)
    (stepSize eps : ℚ) (input : TTensor) (heps : 0 ≤ eps) :
    (∀ cur : D4, ∀ n c i j,
        |pgdStep M stepSize eps input.data cur n c i j - input.data n c i j| ≤ eps)
    ∧ (perturb M training 0 stepSize eps input).2.2 = Except.ok input.data := by
  constructor
  · intro cur n c i j
    exact clampBox_abs_le input.data eps
      (fun n c i j => cur n c i j
        - stepSize * ratSign (M.gradLoss (freshLabels M cur) cur n c i j)) heps n c i j
  · rfl

/-- Witness for the amended C5 at a concrete configuration. -/
theorem pgd_linf_box_and_zero_steps_witness :
    (0 : ℚ) ≤ 1
    ∧ ((∀ cur : D4, ∀ n c i j,
          |pgdStep trivialOracle 0 1 zeroInput.data cur n c i j
            - zeroInput.data n c i j| ≤ 1)
      ∧ (perturb trivialOracle false 0 0 1 zeroInput).2.2 = Except.ok zeroInput.data) :=
  ⟨by norm_num,
    pgd_linf_box_and_zero_steps trivialOracle false 0 1 zeroInput (by norm_num)⟩

/-- Counterexample to C5 as stated: with the (degenerate but accepted)
configuration `eps = -1`, the returned tensor violates the L-infinity bound
`max |output - input| ≤ eps`. -/
theorem pgd_linf_counterexample_negative_epsilon :
    (perturb trivialOracle false 0 0 (-1) zeroInput).2.2 = Except.ok zeroInput.data
    ∧ ¬ (|zeroInput.data 0 0 0 0 - zeroInput.data 0 0 0 0| ≤ (-1 : ℚ)) := by
  constructor
  · rfl
  · norm_num [zeroInput]

/-- C6 (amended): the model's train/eval mode is restored on the normal exit
path — whenever the loop completes without an exception, the mode after the
call equals the mode before it. -/
theorem pgd_mode_restored_on_success (M : ModelOracle) (training : Bool)
    (numSteps : Nat) (stepSize eps : ℚ) (input : TTensor) (out : D4)
    (hok : (perturb M training numSteps stepSize eps input).2.2 = Except.ok out) :
    (perturb M training numSteps stepSize eps input).1 = training := by
  unfold perturb at hok ⊢
  cases h : pgdLoop M stepSize eps input.data numSteps input.data with
  | ok o =>
    simp only [h]
    cases training <;> rfl
  | error e =>
    rw [h] at hok
    simp at hok

/-- Witness for the amended C6: a run that completes normally restores the
training mode. -/
theorem pgd_mode_restored_on_success_witness :
    (perturb trivialOracle true 1 0 0 zeroInput).2.2
      = Except.ok (pgdStep trivialOracle 0 0 zeroInput.data zeroInput.data)
    ∧ (perturb trivialOracle true 1 0 0 zeroInput).1 = true :=
  ⟨rfl, pgd_mode_restored_on_success trivialOracle true 1 0 0 zeroInput
    (pgdStep trivialOracle 0 0 zeroInput.data zeroInput.data) rfl⟩

/-- Counterexample to C6 as stated: when the model's forward pass raises
inside the loop, the mode is not restored — a model that was in training
mode is left in eval mode after the failing call. -/
theorem pgd_mode_not_restored_on_failure :
    (perturb failingOracle true 1 0 0 zeroInput).2.2 = Except.error ()
    ∧ (perturb failingOracle true 1 0 0 zeroInput).1 ≠ true := by
  constructor
  · rfl
  · intro hcontra
    exact Bool.noConfusion hcontra

/-- C7: each iteration of `PGDAttack.perturb` updates the candidate by
`cur - step_size * sign(grad)` with the loss gradient taken at the
least-confident label recomputed from the current candidate's logits, then
clamps to the `eps`-box; a gradient of exactly zero yields a zero step (the
candidate, already inside the box, is unchanged). -/
theorem pgd_step_fresh_argmin_and_zero_grad (M : ModelOracle) (stepSize eps : ℚ)
    (inp cur : D4) :
    (∀ n c i j, pgdStep M stepSize eps inp cur n c i j
        = max (min (cur n c i j - stepSize * ratSign
              (M.gradLoss (fun m => argminIdx M.numClasses (fun k => M.logits cur m k))
                cur n c i j))
            (inp n c i j + eps)) (inp n c i j - eps))
    ∧ ((∀ n c i j, M.gradLoss (freshLabels M cur) cur n c i j = 0)
        → (∀ n c i j, |cur n c i j - inp n c i j| ≤ eps)
        → ∀ n c i j, pgdStep M stepSize eps inp cur n c i j = cur n c i j) := by
  constructor
  · intro n c i j
    rfl
  · intro hg hbox n c i j
    have hb := hbox n c i j
    rw [abs_le] at hb
    simp only [pgdStep, clampBox]
    rw [hg n c i j]
    have hsign : ratSign 0 = 0 := by norm_num [ratSign]
    rw [hsign, mul_zero, sub_zero, min_eq_left (by linarith), max_eq_left (by linarith)]

/-- Witness for C7 at a concrete configuration with zero gradient. -/
theorem pgd_step_fresh_argmin_and_zero_grad_witness :
    (∀ n c i j, pgdStep trivialOracle 1 1 zeroInput.data zeroInput.data n c i j
        = max (min (zeroInput.data n c i j - 1 * ratSign
              (trivialOracle.gradLoss
                (fun m => argminIdx trivialOracle.numClasses
                  (fun k => trivialOracle.logits zeroInput.data m k))
                zeroInput.data n c i j))
            (zeroInput.data n c i j + 1)) (zeroInput.data n c i j - 1))
    ∧ (∀ n c i j, pgdStep trivialOracle 1 1 zeroInput.data zeroInput.data n c i j
        = zeroInput.data n c i j) :=
  ⟨(pgd_step_fresh_argmin_and_zero_grad trivialOracle 1 1 zeroInput.data zeroInput.data).1,
    (pgd_step_fresh_argmin_and_zero_grad trivialOracle 1 1 zeroInput.data zeroInput.data).2
      (fun _ _ _ _ => rfl) (fun _ _ _ _ => by norm_num [zeroInput])⟩

/-- The seed is a lower bound for a fold of `max`. -/
theorem foldr_max_le_seed (l : List ℚ) (sd : ℚ) : sd ≤ l.foldr max sd := by
  induction l with
  | nil => exact le_refl _
  | cons a t ih => exact le_trans ih (le_max_right a _)

/-- Every element is a lower bound for a fold of `max`. -/
theorem foldr_max_mem_le (l : List ℚ) (sd : ℚ) (x : ℚ) (hx : x ∈ l) :
    x ≤ l.foldr max sd := by
  induction l with
  | nil => cases hx
  | cons a t ih =>
    rcases List.mem_cons.mp hx with h | h
    · rw [h]
      exact le_max_left a _
    · exact le_trans (ih h) (le_max_right a _)

/-- A fold of `max` is the seed or one of the elements. -/
theorem foldr_max_eq_seed_or_mem (l : List ℚ) (sd : ℚ) :
    l.foldr max sd = sd ∨ l.foldr max sd ∈ l := by
  induction l with
  | nil => exact Or.inl rfl
  | cons a t ih =>
    rcases max_choice a (t.foldr max sd) with h | h
    · right
      rw [List.foldr_cons, h]
      exact List.mem_cons_self a t
    · rcases ih with h2 | h2
      · left
        rw [List.foldr_cons, h, h2]
      · right
        rw [List.foldr_cons, h]
        exact List.mem_cons_of_mem a h2

/-- The channel-max of absolute gradients is non-negative. -/
theorem chanMax_nonneg (C : Nat) (g : D4) (n i j : Nat) : 0 ≤ chanMax C g n i j :=
  foldr_max_le_seed _ 0

/-- The channel-max dominates every channel's absolute gradient. -/
theorem chanMax_ub (C c : Nat) (hc : c < C) (g : D4) (n i j : Nat) :
    |g n c i j| ≤ chanMax C g n i j :=
  foldr_max_mem_le _ 0 _ (List.mem_map.mpr ⟨c, List.mem_range.mpr hc, rfl⟩)

/-- The channel-max is attained at some channel. -/
theorem chanMax_attained (C : Nat) (hC : 1 ≤ C) (g : D4) (n i j : Nat) :
    ∃ c, c < C ∧ chanMax C g n i j = |g n c i j| := by
  rcases foldr_max_eq_seed_or_mem ((List.range C).map (fun c => |g n c i j|)) 0 with h | h
  · refine ⟨0, hC, ?_⟩
    have hub := chanMax_ub C 0 hC g n i j
    unfold chanMax at hub ⊢
    rw [h] at hub ⊢
    exact (le_antisymm hub (abs_nonneg _)).symm
  · rcases List.mem_map.mp h with ⟨c, hc, hval⟩
    exact ⟨c, List.mem_range.mp hc, hval.symm⟩

/-- C8: for an `(N, C, H, W)` input, `GradAttention.explain` returns a
saliency map of shape `(N, 1, H, W)` whose every value is non-negative and
whose value at each pixel is the maximum over the `C` channels of the
absolute gradient of the loss — taken against the arg-max predicted label of
a single forward pass — with respect to the input. -/
theorem explain_saliency_shape_nonneg_max (M : ModelOracle) (st : MState)
    (input : TTensor) (N C H W : Nat) (hdims : input.dims = (N, C, H, W)) (hC : 1 ≤ C) :
    ((explain M st input).2.2.dims = (N, 1, H, W))
    ∧ (∀ n c i j, 0 ≤ (explain M st input).2.2.data n c i j)
    ∧ (∀ n i j c, c < C →
        |M.gradLoss (fun m => argmaxIdx M.numClasses (fun k => M.logits input.data m k))
            input.data n c i j|
          ≤ (explain M st input).2.2.data n 0 i j)
    ∧ (∀ n i j, ∃ c, c < C
        ∧ (explain M st input).2.2.data n 0 i j
            = |M.gradLoss (fun m => argmaxIdx M.numClasses (fun k => M.logits input.data m k))
                input.data n c i j|) := by
  have hC2 : input.dims.2.1 = C := by rw [hdims]
  refine ⟨?_, ?_, ?_, ?_⟩
  · show (input.dims.1, 1, input.dims.2.2.1, input.dims.2.2.2) = (N, 1, H, W)
    rw [hdims]
  · intro n c i j
    show 0 ≤ (if c = 0 then chanMax input.dims.2.1
      (M.gradLoss (fun m => argmaxIdx M.numClasses (fun k => M.logits input.data m k))
        input.data) n i j else 0)
    by_cases hc : c = 0
    · rw [if_pos hc]
      exact chanMax_nonneg _ _ _ _ _
    · rw [if_neg hc]
  · intro n i j c hc
    show _ ≤ (if (0 : Nat) = 0 then chanMax input.dims.2.1
      (M.gradLoss (fun m => argmaxIdx M.numClasses (fun k => M.logits input.data m k))
        input.data) n i j else 0)
    rw [if_pos rfl, hC2]
    exact chanMax_ub C c hc _ n i j
  · intro n i j
    have := chanMax_attained C hC
      (M.gradLoss (fun m => argmaxIdx M.numClasses (fun k => M.logits input.data m k))
        input.data) n i j
    rcases this with ⟨c, hc, hval⟩
    refine ⟨c, hc, ?_⟩
    show (if (0 : Nat) = 0 then chanMax input.dims.2.1
      (M.gradLoss (fun m => argmaxIdx M.numClasses (fun k => M.logits input.data m k))
        input.data) n i j else 0) = _
    rw [if_pos rfl, hC2]
    exact hval

/-- Witness for C8 at a concrete model and input. -/
theorem explain_saliency_shape_nonneg_max_witness :
    zeroInput.dims = (1, 1, 1, 1) ∧ 1 ≤ 1
    ∧ (((explain trivialOracle allTrainState zeroInput).2.2.dims = (1, 1, 1, 1))
      ∧ (∀ n c i j, 0 ≤ (explain trivialOracle allTrainState zeroInput).2.2.data n c i j)
      ∧ (∀ n i j c, c < 1 →
          |trivialOracle.gradLoss
              (fun m => argmaxIdx trivialOracle.numClasses
                (fun k => trivialOracle.logits zeroInput.data m k))
              zeroInput.data n c i j|
            ≤ (explain trivialOracle allTrainState zeroInput).2.2.data n 0 i j)
      ∧ (∀ n i j, ∃ c, c < 1
          ∧ (explain trivialOracle allTrainState zeroInput).2.2.data n 0 i j
              = |trivialOracle.gradLoss
                  (fun m => argmaxIdx trivialOracle.numClasses
                    (fun k => trivialOracle.logits zeroInput.data m k))
                  zeroInput.data n c i j|)) :=
  ⟨rfl, le_refl 1,
    explain_saliency_shape_nonneg_max trivialOracle allTrainState zeroInput 1 1 1 1
      rfl (le_refl 1)⟩

/-- C9 (amended): `GradAttention.explain` marks every model parameter
non-trainable and forces eval mode, and restores neither — after the call
every parameter's requires-grad flag is `false` and the model is in eval
mode, regardless of their values before the call. -/
theorem explain_param_flags_cleared (M : ModelOracle) (st : MState) (input : TTensor) :
    (∀ q, (explain M st input).1.paramRG q = false)
    ∧ (explain M st input).1.training = false :=
  ⟨fun _ => rfl, rfl⟩

/-- Counterexample to C9 as stated: a parameter trainable before the call is
no longer trainable after it — the flag is not restored. -/
theorem explain_param_flags_not_restored :
    allTrainState.paramRG 0 = true
    ∧ (explain trivialOracle allTrainState zeroInput).1.paramRG 0 = false
    ∧ (explain trivialOracle allTrainState zeroInput).1.paramRG 0
        ≠ allTrainState.paramRG 0 :=
  ⟨rfl, rfl, fun hcontra => Bool.noConfusion hcontra⟩

/-- C10: `PGDAttack.perturb` never writes the element values of the caller's
input tensor (its values and shape after the call equal those before), but
it does clear the input's requires-grad flag as a side effect. -/
theorem perturb_preserves_input_values_clears_flag (M : ModelOracle) (training : Bool)
    (numSteps : Nat) (stepSize eps : ℚ) (input : TTensor) :
    ((perturb M training numSteps stepSize eps input).2.1.data = input.data)
    ∧ ((perturb M training numSteps stepSize eps input).2.1.dims = input.dims)
    ∧ ((perturb M training numSteps stepSize eps input).2.1.requiresGrad = false) := by
  unfold perturb
  cases pgdLoop M stepSize eps input.data numSteps input.data with
  | ok o => exact ⟨rfl, rfl, rfl⟩
  | error e => exact ⟨rfl, rfl, rfl⟩
